import Mathlib

/-!
Shallow embedding of the chord dictionary core (`src/chords.rs`).

Strings are modelled as `List Char`; Rust `String` ordering (UTF-8 byte
lexicographic) coincides with code-point lexicographic order, which is the
order modelled here. `Chord` mirrors `pub struct Chord(String)`, the
`BTreeMap<Chord, String>` of `Chords` is modelled as a strictly-sorted
association list maintained by an ordered insert.
-/

namespace ChordsCore

/-- Rust `char::is_whitespace`: the Unicode `White_Space` property. -/
def rustWs (c : Char) : Bool :=
  let n := c.toNat
  (0x09 ≤ n && n ≤ 0x0D) || n == 0x20 || n == 0x85 || n == 0xA0 || n == 0x1680 ||
    (0x2000 ≤ n && n ≤ 0x200A) || n == 0x2028 || n == 0x2029 || n == 0x202F ||
    n == 0x205F || n == 0x3000

/-- Rust `char::is_ascii_lowercase`. -/
def isLowerAscii (c : Char) : Bool := 'a' ≤ c && c ≤ 'z'

/-- Rust `char::is_ascii_uppercase`. -/
def isUpperAscii (c : Char) : Bool := 'A' ≤ c && c ≤ 'Z'

/-- Rust `char::to_ascii_uppercase`: fold an ASCII lowercase letter to the
corresponding uppercase letter, leave every other character unchanged. -/
def upperAscii (c : Char) : Char :=
  if isLowerAscii c then Char.ofNat (c.toNat - 32) else c

/-- `Chord` wraps its canonical string, as `pub struct Chord(String)` does. -/
structure Chord where
  str : List Char
deriving DecidableEq, Repr

/-- The loop hidden in `self.0.find(|char| char != '+' && key < char)` followed
by `insert_str(position, "<key>+")` (found) or `push('+'); push(key)` (not
found): walk the canonical string and splice the new key in before the first
non-`'+'` character greater than it, else append `"+<key>"`. -/
def insertLoop (key : Char) : List Char → List Char
  | [] => ['+', key]
  | c :: rest =>
    if c ≠ '+' ∧ key < c then key :: '+' :: c :: rest
    else c :: insertLoop key rest

/-- `Chord::insert`, returning the Rust method's boolean together with the
chord value after the call (the Rust method mutates in place). -/
def Chord.insert (self : Chord) (key : Char) : Bool × Chord :=
  let key := upperAscii key
  if !isUpperAscii key || self.str.contains key then (false, self)
  else if self.str.isEmpty then (true, ⟨[key]⟩)
  else (true, ⟨insertLoop key self.str⟩)

/-- `Chord::as_str`. -/
def Chord.asStr (self : Chord) : List Char := self.str

/-- `Chord::clear`. -/
def Chord.clear (_self : Chord) : Chord := ⟨[]⟩

/-- Rust `str::split(sep)`: every separator splits, empty segments included,
and the empty string yields the single segment `[]`. -/
def splitOnChar (sep : Char) : List Char → List (List Char)
  | [] => [[]]
  | c :: rest =>
    if c = sep then [] :: splitOnChar sep rest
    else
      match splitOnChar sep rest with
      | [] => [[c]]
      | s :: ss => (c :: s) :: ss

/-- Rust `str::trim`: drop leading and trailing `White_Space` characters. -/
def trimChars (s : List Char) : List Char :=
  ((s.dropWhile rustWs).reverse.dropWhile rustWs).reverse

/-- Rust `char::from_str(segment.trim())`: succeeds exactly when the trimmed
segment is a single character. -/
def charFromSegment (s : List Char) : Option Char :=
  match trimChars s with
  | [c] => some c
  | _ => none

/-- The short-circuiting `collect::<Result<_, _>>` over
`char::from_str(seg.trim()).map(|c| c.to_ascii_uppercase())`. -/
def parseSegs : List (List Char) → Option (List Char)
  | [] => some []
  | s :: rest =>
    match charFromSegment s with
    | none => none
    | some c =>
      match parseSegs rest with
      | none => none
      | some cs => some (upperAscii c :: cs)

/-- Ordered, deduplicating insert: the effect of `BTreeSet::insert` on the
sorted list of the set's elements. -/
def sortedInsertChar (c : Char) : List Char → List Char
  | [] => [c]
  | x :: xs =>
    if c < x then c :: x :: xs
    else if c = x then x :: xs
    else x :: sortedInsertChar c xs

/-- `"+".join` over singleton key strings: `chars.join("+")`. -/
def joinPlus : List Char → List Char
  | [] => []
  | [c] => [c]
  | c :: rest => c :: '+' :: joinPlus rest

/-- `Chord::from_str` (errors collapsed to `none`): split on `'+'`, parse each
trimmed segment as one character, fold to uppercase, collect into a
`BTreeSet`, and re-serialize the sorted set joined by `'+'`. -/
def Chord.fromStr (s : List Char) : Option Chord :=
  match parseSegs (splitOnChar '+' s) with
  | none => none
  | some cs => some ⟨joinPlus (cs.foldl (fun t c => sortedInsertChar c t) [])⟩

/-- Lexicographic order on `List Char`: the order of Rust's derived `Ord` for
`Chord` (UTF-8 byte order on the canonical `String`, which agrees with
code-point lexicographic order). -/
def lexLt : List Char → List Char → Bool
  | [], [] => false
  | [], _ :: _ => true
  | _ :: _, [] => false
  | a :: as, b :: bs => if a < b then true else if b < a then false else lexLt as bs

/-- Words stored in the dictionary. -/
abbrev Word := List Char

/-- The `BTreeMap<Chord, String>` inside `Chords`, as its sorted entry list. -/
abbrev ChordMap := List (Chord × Word)

/-- `BTreeMap::insert` on the sorted entry list (keyed by the chord's
canonical string under `lexLt`; an equal key is overwritten in place). -/
def mapInsert (k : Chord) (v : Word) : ChordMap → ChordMap
  | [] => [(k, v)]
  | (k', v') :: rest =>
    if lexLt k.str k'.str then (k, v) :: (k', v') :: rest
    else if k = k' then (k, v) :: rest
    else (k', v') :: mapInsert k v rest

/-- `BTreeMap::remove` on the sorted entry list (the removed word, if any, is
not modelled; claims here only concern the resulting map). -/
def mapRemove (k : Chord) : ChordMap → ChordMap
  | [] => []
  | (k', v') :: rest =>
    if k = k' then rest else (k', v') :: mapRemove k rest

/-- `BTreeMap::get`-style lookup on the entry list. -/
def mapLookup (k : Chord) : ChordMap → Option Word
  | [] => none
  | (k', v') :: rest => if k = k' then some v' else mapLookup k rest

/-- The per-line body of `Chords::read_from_file`'s `filter_map`: split the
line on `':'`, parse the first segment as a chord, trim the second segment as
the word; `none` drops the line. -/
def parseLine (line : List Char) : Option (Chord × Word) :=
  match splitOnChar ':' line with
  | s1 :: s2 :: _ =>
    match Chord.fromStr s1 with
    | some c => some (c, trimChars s2)
    | none => none
  | _ => none

/-- `Chords::read_from_file` applied to the file's text (the I/O layer is
outside the embedding): split on `'\n'`, keep the parseable lines, and
collect into the map, later entries overwriting earlier ones. -/
def loadContent (content : List Char) : ChordMap :=
  ((splitOnChar '\n' content).filterMap parseLine).foldl
    (fun m e => mapInsert e.1 e.2 m) []

/-- One serialized entry without its terminating line feed:
`format!("{chord}: {word}", chord = chord.as_str())`. -/
def lineBody (e : Chord × Word) : List Char :=
  e.1.str ++ ':' :: ' ' :: e.2

/-- `Chords::write_to_file`'s text: every entry as `"<chord>: <word>\n"`, in
map order, concatenated. -/
def saveContent (m : ChordMap) : List Char :=
  (m.map (fun e => lineBody e ++ ['\n'])).flatten

/-- `Chords::iter`: iteration over a clone of the map, i.e. the entry list
itself as an independent snapshot. -/
def Chords.iter (m : ChordMap) : List (Chord × Word) := m

/-- An editing step a caller can perform on the dictionary map. -/
inductive DictOp where
  | ins : Chord → Word → DictOp
  | rem : Chord → DictOp

/-- Apply a sequence of dictionary edits. -/
def applyOps (ops : List DictOp) (m : ChordMap) : ChordMap :=
  ops.foldl
    (fun m op =>
      match op with
      | .ins c w => mapInsert c w m
      | .rem c => mapRemove c m)
    m

/-- Strict ascending order between map entries: the `BTreeMap` key order. -/
def entryLt (a b : Chord × Word) : Prop := lexLt a.1.str b.1.str = true

instance : DecidableRel entryLt := fun a b => by
  unfold entryLt
  infer_instance

/-- The `Chord` values reachable through the public constructors: the default
(empty) chord, `clear`, successful `parse`, and any `insert` calls. -/
inductive Reachable : Chord → Prop
  | dflt : Reachable ⟨[]⟩
  | parse (s : List Char) (c : Chord) : Chord.fromStr s = some c → Reachable c
  | ins (c : Chord) (k : Char) : Reachable c → Reachable (Chord.insert c k).2

/-- A character that can occur as a key of a reachable chord: not the `'+'`
delimiter, not whitespace, not an ASCII lowercase letter. -/
def goodKey (c : Char) : Bool := c ≠ '+' && !rustWs c && !isLowerAscii c

/-! ### Character-level facts -/

theorem char_lt_iff_toNat {a b : Char} : a < b ↔ a.toNat < b.toNat := by
  rw [Char.lt_def]; exact Iff.rfl

theorem char_le_iff_toNat {a b : Char} : a ≤ b ↔ a.toNat ≤ b.toNat := by
  rw [Char.le_def]; exact Iff.rfl

theorem char_eq_of_toNat {a b : Char} (h : a.toNat = b.toNat) : a = b :=
  Char.ext (UInt32.toNat.inj h)

theorem toNat_ofNat_valid {n : Nat} (h : n < 55296) : (Char.ofNat n).toNat = n := by
  simp [Char.ofNat, Nat.isValidChar, h, Char.ofNatAux, Char.toNat, UInt32.toNat]

theorem isLowerAscii_iff {c : Char} :
    isLowerAscii c = true ↔ 97 ≤ c.toNat ∧ c.toNat ≤ 122 := by
  simp only [isLowerAscii, Bool.and_eq_true, decide_eq_true_eq]
  rw [char_le_iff_toNat, char_le_iff_toNat]
  exact Iff.rfl

theorem isUpperAscii_iff {c : Char} :
    isUpperAscii c = true ↔ 65 ≤ c.toNat ∧ c.toNat ≤ 90 := by
  simp only [isUpperAscii, Bool.and_eq_true, decide_eq_true_eq]
  rw [char_le_iff_toNat, char_le_iff_toNat]
  exact Iff.rfl

theorem rustWs_iff {c : Char} :
    rustWs c = true ↔
      (9 ≤ c.toNat ∧ c.toNat ≤ 13) ∨ c.toNat = 32 ∨ c.toNat = 133 ∨
        c.toNat = 160 ∨ c.toNat = 5760 ∨ (8192 ≤ c.toNat ∧ c.toNat ≤ 8202) ∨
        c.toNat = 8232 ∨ c.toNat = 8233 ∨ c.toNat = 8239 ∨ c.toNat = 8287 ∨
        c.toNat = 12288 := by
  simp only [rustWs, Bool.or_eq_true, Bool.and_eq_true, decide_eq_true_eq,
    Nat.beq_eq_true_eq]
  tauto

theorem upperAscii_of_not_lower {c : Char} (h : isLowerAscii c = false) :
    upperAscii c = c := by
  simp [upperAscii, h]

theorem toNat_upperAscii_of_lower {c : Char} (h : isLowerAscii c = true) :
    (upperAscii c).toNat = c.toNat - 32 := by
  have hb := isLowerAscii_iff.mp h
  simp only [upperAscii, h, if_true]
  exact toNat_ofNat_valid (by omega)

theorem upperAscii_not_lower (c : Char) : isLowerAscii (upperAscii c) = false := by
  cases h : isLowerAscii c with
  | false => rw [upperAscii_of_not_lower h]; exact h
  | true =>
    have hb := isLowerAscii_iff.mp h
    have ht := toNat_upperAscii_of_lower h
    cases h2 : isLowerAscii (upperAscii c) with
    | false => rfl
    | true => have := isLowerAscii_iff.mp h2; omega

theorem upperAscii_ne_plus {c : Char} (h : c ≠ '+') : upperAscii c ≠ '+' := by
  cases hl : isLowerAscii c with
  | false => rw [upperAscii_of_not_lower hl]; exact h
  | true =>
    have hb := isLowerAscii_iff.mp hl
    have ht := toNat_upperAscii_of_lower hl
    intro he
    have : (upperAscii c).toNat = 43 := by rw [he]; rfl
    omega

theorem upperAscii_not_ws {c : Char} (h : rustWs c = false) :
    rustWs (upperAscii c) = false := by
  cases hl : isLowerAscii c with
  | false => rw [upperAscii_of_not_lower hl]; exact h
  | true =>
    have hb := isLowerAscii_iff.mp hl
    have ht := toNat_upperAscii_of_lower hl
    cases h2 : rustWs (upperAscii c) with
    | false => rfl
    | true => have := rustWs_iff.mp h2; omega

theorem goodKey_upperAscii {c : Char} (h1 : c ≠ '+') (h2 : rustWs c = false) :
    goodKey (upperAscii c) = true := by
  simp only [goodKey, Bool.and_eq_true, Bool.not_eq_true', decide_eq_true_eq]
  exact ⟨⟨upperAscii_ne_plus h1, upperAscii_not_ws h2⟩, upperAscii_not_lower c⟩

theorem goodKey_of_upper {c : Char} (h : isUpperAscii c = true) :
    goodKey c = true := by
  have hb := isUpperAscii_iff.mp h
  simp only [goodKey, Bool.and_eq_true, Bool.not_eq_true', decide_eq_true_eq]
  refine ⟨⟨?_, ?_⟩, ?_⟩
  · intro he; have : c.toNat = 43 := by rw [he]; rfl
    omega
  · cases hw : rustWs c with
    | false => rfl
    | true => have := rustWs_iff.mp hw; omega
  · cases hl : isLowerAscii c with
    | false => rfl
    | true => have := isLowerAscii_iff.mp hl; omega

theorem upperAscii_fix_of_goodKey {c : Char} (h : goodKey c = true) :
    upperAscii c = c := by
  simp only [goodKey, Bool.and_eq_true, Bool.not_eq_true', decide_eq_true_eq] at h
  exact upperAscii_of_not_lower h.2

theorem goodKey_spell {c : Char} (h : goodKey c = true) :
    c ≠ '+' ∧ rustWs c = false ∧ isLowerAscii c = false := by
  simp only [goodKey, Bool.and_eq_true, Bool.not_eq_true', decide_eq_true_eq] at h
  exact ⟨h.1.1, h.1.2, h.2⟩

/-! ### Lexicographic order on canonical strings -/

theorem lexLt_irrefl (s : List Char) : lexLt s s = false := by
  induction s with
  | nil => rfl
  | cons a t ih => simp [lexLt, ih]

theorem lexLt_asymm {s t : List Char} (h : lexLt s t = true) : lexLt t s = false := by
  induction s generalizing t with
  | nil =>
    cases t with
    | nil => simp [lexLt] at h
    | cons b bs => rfl
  | cons a as ih =>
    cases t with
    | nil => simp [lexLt] at h
    | cons b bs =>
      by_cases hab : a < b
      · have hba : ¬ b < a := lt_asymm hab
        simp [lexLt, hab, hba, ne_of_gt hab]
      · by_cases hba : b < a
        · simp [lexLt, hab, hba] at h
        · simp only [lexLt, if_neg hab, if_neg hba] at h
          simp [lexLt, hab, hba, ih h]

theorem lexLt_total {s t : List Char} (h1 : lexLt s t = false) (h2 : s ≠ t) :
    lexLt t s = true := by
  induction s generalizing t with
  | nil =>
    cases t with
    | nil => exact absurd rfl h2
    | cons b bs => simp [lexLt] at h1
  | cons a as ih =>
    cases t with
    | nil => rfl
    | cons b bs =>
      by_cases hab : a < b
      · simp [lexLt, hab] at h1
      · by_cases hba : b < a
        · simp [lexLt, hba, lt_asymm hba]
        · have hab2 : a = b := le_antisymm (not_lt.mp hba) (not_lt.mp hab)
          subst hab2
          simp only [lexLt, if_neg hab, if_neg hba] at h1 ⊢
          refine ih h1 ?_
          intro he
          exact h2 (by rw [he])

theorem lexLt_trans {s t u : List Char} (h1 : lexLt s t = true)
    (h2 : lexLt t u = true) : lexLt s u = true := by
  induction s generalizing t u with
  | nil =>
    cases u with
    | nil =>
      cases t with
      | nil => simp [lexLt] at h1
      | cons b bs => simp [lexLt] at h2
    | cons c cs => rfl
  | cons a as ih =>
    cases t with
    | nil => simp [lexLt] at h1
    | cons b bs =>
      cases u with
      | nil => simp [lexLt] at h2
      | cons c cs =>
        by_cases hab : a < b
        · by_cases hbc : b < c
          · have hac : a < c := lt_trans hab hbc
            simp [lexLt, hac]
          · by_cases hcb : c < b
            · simp [lexLt, hbc, hcb] at h2
            · have : b = c := le_antisymm (not_lt.mp hcb) (not_lt.mp hbc)
              subst this
              simp [lexLt, hab]
        · by_cases hba : b < a
          · simp [lexLt, hab, hba] at h1
          · have : a = b := le_antisymm (not_lt.mp hba) (not_lt.mp hab)
            subst this
            simp only [lexLt, if_neg hab, if_neg hba] at h1
            by_cases hbc : a < c
            · simp [lexLt, hbc]
            · by_cases hcb : c < a
              · simp [lexLt, hbc, hcb] at h2
              · simp only [lexLt, if_neg hbc, if_neg hcb] at h2 ⊢
                exact ih h1 h2

/-! ### Ordered set insertion (`BTreeSet::insert`) -/

theorem mem_sortedInsertChar {x c : Char} {l : List Char} :
    x ∈ sortedInsertChar c l ↔ x = c ∨ x ∈ l := by
  induction l with
  | nil => simp [sortedInsertChar]
  | cons a t ih =>
    rw [sortedInsertChar]
    split
    · simp only [List.mem_cons]
    · split
      · rename_i h1 h2
        subst h2
        simp only [List.mem_cons]
        tauto
      · simp only [List.mem_cons, ih]
        tauto

theorem sortedInsertChar_ne_nil (c : Char) (l : List Char) :
    sortedInsertChar c l ≠ [] := by
  cases l with
  | nil => simp [sortedInsertChar]
  | cons a t =>
    by_cases h1 : c < a
    · simp [sortedInsertChar, h1]
    · by_cases h2 : c = a
      · simp [sortedInsertChar, h1, h2]
      · simp [sortedInsertChar, h1, h2]

theorem pairwise_sortedInsertChar {c : Char} {l : List Char}
    (h : l.Pairwise (· < ·)) : (sortedInsertChar c l).Pairwise (· < ·) := by
  induction l with
  | nil => simp [sortedInsertChar]
  | cons a t ih =>
    rw [List.pairwise_cons] at h
    by_cases h1 : c < a
    · rw [sortedInsertChar, if_pos h1]
      refine List.Pairwise.cons ?_ (List.Pairwise.cons h.1 h.2)
      intro y hy
      rcases List.mem_cons.mp hy with rfl | hy
      · exact h1
      · exact lt_trans h1 (h.1 y hy)
    · by_cases h2 : c = a
      · rw [sortedInsertChar, if_neg h1, if_pos h2]
        exact List.Pairwise.cons h.1 h.2
      · rw [sortedInsertChar, if_neg h1, if_neg h2]
        refine List.Pairwise.cons ?_ (ih h.2)
        intro y hy
        rcases mem_sortedInsertChar.mp hy with rfl | hy
        · exact lt_of_le_of_ne (not_lt.mp h1) (Ne.symm h2)
        · exact h.1 y hy

theorem sortedInsertChar_append_gt {c : Char} {l : List Char}
    (h : ∀ x ∈ l, x < c) : sortedInsertChar c l = l ++ [c] := by
  induction l with
  | nil => rfl
  | cons a t ih =>
    have ha : a < c := h a (List.mem_cons_self a t)
    rw [sortedInsertChar, if_neg (lt_asymm ha), if_neg (ne_of_gt ha)]
    rw [ih (fun x hx => h x (List.mem_cons_of_mem a hx))]
    rfl

theorem foldl_sortedInsert_id {ks acc : List Char}
    (h : (acc ++ ks).Pairwise (· < ·)) :
    ks.foldl (fun t c => sortedInsertChar c t) acc = acc ++ ks := by
  induction ks generalizing acc with
  | nil => simp
  | cons a t ih =>
    have hgt : ∀ x ∈ acc, x < a := by
      intro x hx
      have := (List.pairwise_append.mp h).2.2 x hx a (List.mem_cons_self a t)
      exact this
    rw [List.foldl_cons, sortedInsertChar_append_gt hgt]
    have h2 : ((acc ++ [a]) ++ t).Pairwise (· < ·) := by
      simpa using h
    rw [ih h2]
    simp

theorem mem_foldl_sortedInsert {x : Char} {l acc : List Char} :
    x ∈ l.foldl (fun t c => sortedInsertChar c t) acc ↔ x ∈ acc ∨ x ∈ l := by
  induction l generalizing acc with
  | nil => simp
  | cons a t ih =>
    rw [List.foldl_cons, ih]
    simp only [mem_sortedInsertChar, List.mem_cons]
    tauto

theorem pairwise_foldl_sortedInsert {l acc : List Char}
    (h : acc.Pairwise (· < ·)) :
    (l.foldl (fun t c => sortedInsertChar c t) acc).Pairwise (· < ·) := by
  induction l generalizing acc with
  | nil => exact h
  | cons a t ih => exact ih (pairwise_sortedInsertChar h)

theorem foldl_sortedInsert_ne_nil {l acc : List Char} (h : l ≠ [] ∨ acc ≠ []) :
    l.foldl (fun t c => sortedInsertChar c t) acc ≠ [] := by
  induction l generalizing acc with
  | nil =>
    rcases h with h | h
    · exact absurd rfl h
    · exact h
  | cons a t ih =>
    rw [List.foldl_cons]
    exact ih (Or.inr (sortedInsertChar_ne_nil a acc))

/-! ### Splitting (`str::split`) -/

theorem splitOnChar_ne_nil (sep : Char) (s : List Char) :
    splitOnChar sep s ≠ [] := by
  cases s with
  | nil => simp [splitOnChar]
  | cons c rest =>
    rw [splitOnChar]
    split
    · simp
    · split
      · simp
      · simp

theorem splitOnChar_no_sep {sep : Char} {s : List Char} (h : sep ∉ s) :
    splitOnChar sep s = [s] := by
  induction s with
  | nil => rfl
  | cons c rest ih =>
    have hc : c ≠ sep := fun he => h (he ▸ List.mem_cons_self c rest)
    have hr : sep ∉ rest := fun hm => h (List.mem_cons_of_mem c hm)
    rw [splitOnChar, if_neg hc, ih hr]

theorem splitOnChar_append {sep : Char} {a b : List Char} (h : sep ∉ a) :
    splitOnChar sep (a ++ sep :: b) = a :: splitOnChar sep b := by
  induction a with
  | nil => simp [splitOnChar]
  | cons c rest ih =>
    have hc : c ≠ sep := fun he => h (he ▸ List.mem_cons_self c rest)
    have hr : sep ∉ rest := fun hm => h (List.mem_cons_of_mem c hm)
    rw [List.cons_append, splitOnChar, if_neg hc, ih hr]

theorem not_sep_of_mem_splitOnChar {sep : Char} {s t : List Char}
    (h : t ∈ splitOnChar sep s) : sep ∉ t := by
  induction s generalizing t with
  | nil =>
    simp only [splitOnChar, List.mem_singleton] at h
    subst h
    simp
  | cons c rest ih =>
    rw [splitOnChar] at h
    by_cases hc : c = sep
    · rw [if_pos hc] at h
      rcases List.mem_cons.mp h with rfl | h
      · simp
      · exact ih h
    · rw [if_neg hc] at h
      rcases he : splitOnChar sep rest with _ | ⟨s1, ss⟩
      · exact absurd he (splitOnChar_ne_nil sep rest)
      · rw [he] at h
        rcases List.mem_cons.mp h with rfl | h
        · intro hm
          rcases List.mem_cons.mp hm with rfl | hm
          · exact hc rfl
          · exact ih (he ▸ List.mem_cons_self s1 ss) hm
        · exact ih (he ▸ List.mem_cons_of_mem s1 h)

theorem splitOnChar_of_mem {sep : Char} {s : List Char} (h : sep ∈ s) :
    ∃ s2 ss, splitOnChar sep s = s.takeWhile (· ≠ sep) :: s2 :: ss := by
  induction s with
  | nil => simp at h
  | cons c rest ih =>
    by_cases hc : c = sep
    · subst hc
      rcases he : splitOnChar c rest with _ | ⟨s1, ss⟩
      · exact absurd he (splitOnChar_ne_nil c rest)
      · refine ⟨s1, ss, ?_⟩
        rw [splitOnChar, if_pos rfl, he]
        simp [List.takeWhile]
    · have hr : sep ∈ rest := by
        rcases List.mem_cons.mp h with rfl | hm
        · exact absurd rfl hc
        · exact hm
      obtain ⟨s2, ss, he⟩ := ih hr
      refine ⟨s2, ss, ?_⟩
      rw [splitOnChar, if_neg hc, he]
      have : (c :: rest).takeWhile (· ≠ sep) = c :: rest.takeWhile (· ≠ sep) := by
        simp [List.takeWhile, hc]
      rw [this]

/-! ### Trimming (`str::trim`) -/

theorem trimChars_cons_ws {c : Char} {s : List Char} (h : rustWs c = true) :
    trimChars (c :: s) = trimChars s := by
  simp [trimChars, List.dropWhile, h]

theorem trimChars_single_not_ws {c : Char} (h : rustWs c = false) :
    trimChars [c] = [c] := by
  simp [trimChars, List.dropWhile, h]

theorem mem_trimChars {x : Char} {s : List Char} (h : x ∈ trimChars s) : x ∈ s := by
  simp only [trimChars, List.mem_reverse] at h
  have h1 := (List.dropWhile_suffix (l := (s.dropWhile rustWs).reverse) rustWs).sublist.mem h
  rw [List.mem_reverse] at h1
  exact (List.dropWhile_suffix (l := s) rustWs).sublist.mem h1

theorem trimChars_singleton_not_ws {c : Char} {s : List Char}
    (h : trimChars s = [c]) : rustWs c = false := by
  have : (s.dropWhile rustWs).reverse.dropWhile rustWs = [c] := by
    have := congrArg List.reverse h
    rw [trimChars, List.reverse_reverse] at this
    exact this
  have hh := List.head?_dropWhile_not rustWs (s.dropWhile rustWs).reverse
  rw [this] at hh
  simp at hh
  simp [hh]

theorem trimChars_all_ws {s : List Char} (h : ∀ c ∈ s, rustWs c = true) :
    trimChars s = [] := by
  have h1 : s.dropWhile rustWs = [] := by
    induction s with
    | nil => rfl
    | cons c rest ih =>
      rw [List.dropWhile_cons_of_pos (h c (List.mem_cons_self c rest))]
      exact ih (fun x hx => h x (List.mem_cons_of_mem c hx))
  simp [trimChars, h1]

theorem trimChars_trimmed {s : List Char} (h : trimChars s = s) :
    trimChars (' ' :: s) = s := by
  rw [trimChars_cons_ws (by rfl), h]

/-! ### `joinPlus` structure -/

theorem joinPlus_cons {a : Char} {ks : List Char} (h : ks ≠ []) :
    joinPlus (a :: ks) = a :: '+' :: joinPlus ks := by
  cases ks with
  | nil => exact absurd rfl h
  | cons b t => rfl

theorem joinPlus_eq_nil_iff {ks : List Char} : joinPlus ks = [] ↔ ks = [] := by
  cases ks with
  | nil => simp [joinPlus]
  | cons a t =>
    cases t with
    | nil => simp [joinPlus]
    | cons b u => simp [joinPlus]

theorem mem_joinPlus_elim {x : Char} {ks : List Char} (h : x ∈ joinPlus ks) :
    x = '+' ∨ x ∈ ks := by
  induction ks with
  | nil => simp [joinPlus] at h
  | cons a t ih =>
    cases t with
    | nil =>
      simp only [joinPlus, List.mem_singleton] at h
      exact Or.inr (h ▸ List.mem_cons_self a [])
    | cons b u =>
      rw [joinPlus_cons (by simp)] at h
      rcases List.mem_cons.mp h with rfl | h
      · exact Or.inr (List.mem_cons_self x _)
      · rcases List.mem_cons.mp h with rfl | h
        · exact Or.inl rfl
        · rcases ih h with h | h
          · exact Or.inl h
          · exact Or.inr (List.mem_cons_of_mem a h)

theorem mem_joinPlus_of_mem {x : Char} {ks : List Char} (h : x ∈ ks) :
    x ∈ joinPlus ks := by
  induction ks with
  | nil => simp at h
  | cons a t ih =>
    cases t with
    | nil =>
      simp only [List.mem_singleton] at h
      simp [joinPlus, h]
    | cons b u =>
      rw [joinPlus_cons (by simp)]
      rcases List.mem_cons.mp h with rfl | h
      · exact List.mem_cons_self x _
      · exact List.mem_cons_of_mem a (List.mem_cons_of_mem '+' (ih h))

theorem splitOnChar_joinPlus {ks : List Char} (hne : ks ≠ [])
    (h : ∀ k ∈ ks, k ≠ '+') :
    splitOnChar '+' (joinPlus ks) = ks.map (fun k => [k]) := by
  induction ks with
  | nil => exact absurd rfl hne
  | cons a t ih =>
    cases t with
    | nil =>
      rw [show joinPlus [a] = [a] from rfl]
      rw [splitOnChar_no_sep
        (by simpa using (h a (List.mem_cons_self a [])).symm)]
      rfl
    | cons b u =>
      rw [joinPlus_cons (by simp)]
      have ha : '+' ∉ [a] := by
        simpa using (h a (List.mem_cons_self a _)).symm
      have := splitOnChar_append (a := [a]) (b := joinPlus (b :: u)) ha
      simp only [List.singleton_append] at this
      rw [this, ih (by simp) (fun k hk => h k (List.mem_cons_of_mem a hk))]
      rfl

/-! ### Segment parsing (`char::from_str` over the split) -/

theorem charFromSegment_none_iff {s : List Char} :
    charFromSegment s = none ↔ (trimChars s).length ≠ 1 := by
  rw [charFromSegment]
  rcases ht : trimChars s with _ | ⟨c, _ | ⟨d, u⟩⟩ <;> simp

theorem charFromSegment_some_iff {s : List Char} {c : Char} :
    charFromSegment s = some c ↔ trimChars s = [c] := by
  rw [charFromSegment]
  rcases ht : trimChars s with _ | ⟨a, _ | ⟨d, u⟩⟩ <;> simp

theorem parseSegs_none_iff {l : List (List Char)} :
    parseSegs l = none ↔ ∃ s ∈ l, charFromSegment s = none := by
  induction l with
  | nil => simp [parseSegs]
  | cons s rest ih =>
    rw [parseSegs]
    rcases hc : charFromSegment s with _ | c
    · simp [hc]
    · rcases hr : parseSegs rest with _ | cs <;>
        simp_all

theorem parseSegs_length {l : List (List Char)} {cs : List Char}
    (h : parseSegs l = some cs) : cs.length = l.length := by
  induction l generalizing cs with
  | nil => simp [parseSegs] at h; simp [← h]
  | cons s rest ih =>
    rw [parseSegs] at h
    rcases hc : charFromSegment s with _ | c <;> rw [hc] at h
    · exact absurd h (by simp)
    · rcases hr : parseSegs rest with _ | cs' <;> rw [hr] at h
      · exact absurd h (by simp)
      · cases h
        simp [ih hr]

theorem parseSegs_some_mem {l : List (List Char)} {cs : List Char}
    (h : parseSegs l = some cs) {x : Char} :
    x ∈ cs ↔ ∃ s ∈ l, ∃ y, charFromSegment s = some y ∧ upperAscii y = x := by
  induction l generalizing cs with
  | nil => simp [parseSegs] at h; subst h; simp
  | cons s rest ih =>
    rw [parseSegs] at h
    rcases hc : charFromSegment s with _ | c <;> rw [hc] at h
    · exact absurd h (by simp)
    · rcases hr : parseSegs rest with _ | cs' <;> rw [hr] at h
      · exact absurd h (by simp)
      · cases h
        rw [List.mem_cons, ih hr]
        constructor
        · rintro (rfl | ⟨t, ht, y, hy, hxy⟩)
          · exact ⟨s, List.mem_cons_self s rest, c, hc, rfl⟩
          · exact ⟨t, List.mem_cons_of_mem s ht, y, hy, hxy⟩
        · rintro ⟨t, ht, y, hy, hxy⟩
          rcases List.mem_cons.mp ht with rfl | ht
          · rw [hc] at hy
            cases hy
            exact Or.inl hxy.symm
          · exact Or.inr ⟨t, ht, y, hy, hxy⟩

theorem parseSegs_map_single {ks : List Char}
    (h : ∀ k ∈ ks, rustWs k = false ∧ isLowerAscii k = false) :
    parseSegs (ks.map (fun k => [k])) = some ks := by
  induction ks with
  | nil => rfl
  | cons k rest ih =>
    have hk := h k (List.mem_cons_self k rest)
    have hc : charFromSegment [k] = some k :=
      charFromSegment_some_iff.mpr (trimChars_single_not_ws hk.1)
    rw [List.map_cons, parseSegs, hc,
      ih (fun x hx => h x (List.mem_cons_of_mem k hx))]
    simp [upperAscii_of_not_lower hk.2]

/-! ### Structure of successful `Chord::from_str` results -/

theorem fromStr_canonicalForm {s : List Char} {c : Chord}
    (h : Chord.fromStr s = some c) :
    ∃ ks, c = ⟨joinPlus ks⟩ ∧ ks ≠ [] ∧ ks.Pairwise (· < ·) ∧
      (∀ k ∈ ks, goodKey k = true) ∧
      (∀ x, x ∈ ks ↔
        ∃ seg ∈ splitOnChar '+' s, ∃ y,
          charFromSegment seg = some y ∧ upperAscii y = x) := by
  rw [Chord.fromStr] at h
  rcases hp : parseSegs (splitOnChar '+' s) with _ | cs <;> rw [hp] at h
  · exact absurd h (by simp)
  · cases h
    refine ⟨cs.foldl (fun t c => sortedInsertChar c t) [], rfl, ?_, ?_, ?_, ?_⟩
    · refine foldl_sortedInsert_ne_nil (Or.inl ?_)
      intro hcs
      have h1 := parseSegs_length hp
      rw [hcs] at h1
      have h2 := splitOnChar_ne_nil '+' s
      cases he : splitOnChar '+' s with
      | nil => exact h2 he
      | cons a t => rw [he] at h1; simp at h1
    · exact pairwise_foldl_sortedInsert List.Pairwise.nil
    · intro k hk
      have hk2 : k ∈ cs := by
        rcases mem_foldl_sortedInsert.mp hk with h | h
        · simp at h
        · exact h
      obtain ⟨seg, hseg, y, hy, hxy⟩ := (parseSegs_some_mem hp).mp hk2
      have ht : trimChars seg = [y] := charFromSegment_some_iff.mp hy
      have hyw : rustWs y = false := trimChars_singleton_not_ws ht
      have hyp : y ≠ '+' := by
        intro he
        exact not_sep_of_mem_splitOnChar hseg
          (mem_trimChars (he ▸ ht ▸ List.mem_cons_self y []))
      exact hxy ▸ goodKey_upperAscii hyp hyw
    · intro x
      rw [mem_foldl_sortedInsert]
      simp only [List.not_mem_nil, false_or]
      exact parseSegs_some_mem hp

theorem fromStr_joinPlus {ks : List Char} (hne : ks ≠ [])
    (hp : ks.Pairwise (· < ·)) (hg : ∀ k ∈ ks, goodKey k = true) :
    Chord.fromStr (joinPlus ks) = some ⟨joinPlus ks⟩ := by
  rw [Chord.fromStr,
    splitOnChar_joinPlus hne (fun k hk => (goodKey_spell (hg k hk)).1),
    parseSegs_map_single (fun k hk =>
      ⟨(goodKey_spell (hg k hk)).2.1, (goodKey_spell (hg k hk)).2.2⟩)]
  have hid := foldl_sortedInsert_id
    (show (([] : List Char) ++ ks).Pairwise (· < ·) by simpa using hp)
  simp only [List.nil_append] at hid
  simp [hid]

/-! ### `Chord::insert` characterization -/

theorem insertLoop_length (k : Char) (s : List Char) :
    (insertLoop k s).length = s.length + 2 := by
  induction s with
  | nil => rfl
  | cons c rest ih =>
    rw [insertLoop]
    split
    · simp
    · simp [ih]

theorem insertLoop_joinPlus {ks : List Char} {u : Char} (hne : ks ≠ [])
    (hplus : ∀ k ∈ ks, k ≠ '+') (hmem : u ∉ ks) :
    insertLoop u (joinPlus ks) = joinPlus (sortedInsertChar u ks) := by
  induction ks with
  | nil => exact absurd rfl hne
  | cons a t ih =>
    have hanp : a ≠ '+' := hplus a (List.mem_cons_self a t)
    have hua : u ≠ a := fun he => hmem (he ▸ List.mem_cons_self a t)
    cases t with
    | nil =>
      rw [show joinPlus [a] = [a] from rfl, insertLoop]
      by_cases hlt : u < a
      · rw [if_pos ⟨hanp, hlt⟩, sortedInsertChar, if_pos hlt]
        rfl
      · rw [if_neg (by tauto), sortedInsertChar, if_neg hlt, if_neg hua]
        rfl
    | cons b t2 =>
      have hmem2 : u ∉ b :: t2 := fun hm => hmem (List.mem_cons_of_mem a hm)
      have hplus2 : ∀ k ∈ b :: t2, k ≠ '+' :=
        fun k hk => hplus k (List.mem_cons_of_mem a hk)
      rw [joinPlus_cons (show b :: t2 ≠ [] by simp), insertLoop]
      by_cases hlt : u < a
      · rw [if_pos ⟨hanp, hlt⟩, sortedInsertChar, if_pos hlt,
          joinPlus_cons (show a :: b :: t2 ≠ [] by simp),
          joinPlus_cons (show b :: t2 ≠ [] by simp)]
      · have hR : sortedInsertChar u (a :: b :: t2) =
            a :: sortedInsertChar u (b :: t2) := by
          rw [sortedInsertChar, if_neg hlt, if_neg hua]
        rw [if_neg (by tauto), insertLoop, if_neg (by simp),
          ih (by simp) hplus2 hmem2, hR,
          joinPlus_cons (sortedInsertChar_ne_nil u (b :: t2))]

theorem contains_joinPlus_false {ks : List Char} {u : Char} (hu : u ≠ '+')
    (hmem : u ∉ ks) : (joinPlus ks).contains u = false := by
  cases hc : (joinPlus ks).contains u with
  | false => rfl
  | true =>
    rcases mem_joinPlus_elim (List.elem_iff.mp hc) with h | h
    · exact absurd h hu
    · exact absurd h hmem

theorem insert_canonical {ks : List Char} {key : Char}
    (hg : ∀ k ∈ ks, goodKey k = true)
    (hup : isUpperAscii (upperAscii key) = true)
    (hmem : upperAscii key ∉ ks) :
    Chord.insert ⟨joinPlus ks⟩ key =
      (true, ⟨joinPlus (sortedInsertChar (upperAscii key) ks)⟩) := by
  have hu : upperAscii key ≠ '+' := (goodKey_spell (goodKey_of_upper hup)).1
  rw [Chord.insert]
  simp only [hup, contains_joinPlus_false hu hmem, Bool.not_true,
    Bool.false_or, Bool.or_false, if_false, Bool.false_eq_true, ite_false]
  cases hks : ks with
  | nil => simp [joinPlus, sortedInsertChar, List.isEmpty]
  | cons a t =>
    have hne : joinPlus (a :: t) ≠ [] := by
      rw [Ne, joinPlus_eq_nil_iff]
      simp
    rw [if_neg (by simpa [List.isEmpty_iff] using hne)]
    rw [insertLoop_joinPlus (by simp)
      (fun k hk => (goodKey_spell (hg k (hks ▸ hk))).1)
      (hks ▸ hmem)]

theorem insert_rejected {c : Chord} {key : Char}
    (h : (!isUpperAscii (upperAscii key) ||
      c.str.contains (upperAscii key)) = true) :
    Chord.insert c key = (false, c) := by
  rw [Chord.insert]
  simp only [h, if_true]

theorem insert_true_ne {c : Chord} {key : Char}
    (h : (Chord.insert c key).1 = true) : (Chord.insert c key).2 ≠ c := by
  obtain ⟨cs⟩ := c
  by_cases hcond :
      ((!isUpperAscii (upperAscii key)) || cs.contains (upperAscii key)) = true
  · rw [insert_rejected hcond] at h
    simp at h
  · have hcf : ((!isUpperAscii (upperAscii key)) ||
        cs.contains (upperAscii key)) = false := by
      simpa using hcond
    by_cases hemp : cs.isEmpty = true
    · have hi : Chord.insert ⟨cs⟩ key = (true, ⟨[upperAscii key]⟩) := by
        rw [Chord.insert]
        simp only [hcf, hemp]
        simp
      rw [hi]
      rw [List.isEmpty_iff] at hemp
      subst hemp
      intro he
      simp at he
    · have hef : cs.isEmpty = false := by simpa using hemp
      have hi : Chord.insert ⟨cs⟩ key =
          (true, ⟨insertLoop (upperAscii key) cs⟩) := by
        rw [Chord.insert]
        simp only [hcf, hef]
        simp
      rw [hi]
      intro he
      have h2 : insertLoop (upperAscii key) cs = cs := congrArg Chord.str he
      have hl := congrArg List.length h2
      rw [insertLoop_length] at hl
      omega

/-! ### Map layer: ordered insertion, removal, lookup -/

theorem chord_eq_iff {a b : Chord} : a = b ↔ a.str = b.str := by
  cases a; cases b; simp

theorem mem_mapInsert {e : Chord × Word} {k : Chord} {v : Word} {m : ChordMap}
    (h : e ∈ mapInsert k v m) : e = (k, v) ∨ e ∈ m := by
  induction m with
  | nil => simpa [mapInsert] using h
  | cons p rest ih =>
    obtain ⟨k', v'⟩ := p
    rw [mapInsert] at h
    split at h
    · rcases List.mem_cons.mp h with rfl | h
      · exact Or.inl rfl
      · exact Or.inr h
    · split at h
      · rcases List.mem_cons.mp h with rfl | h
        · exact Or.inl rfl
        · exact Or.inr (List.mem_cons_of_mem _ h)
      · rcases List.mem_cons.mp h with rfl | h
        · exact Or.inr (List.mem_cons_self _ _)
        · rcases ih h with h | h
          · exact Or.inl h
          · exact Or.inr (List.mem_cons_of_mem _ h)

theorem pairwise_mapInsert {k : Chord} {v : Word} {m : ChordMap}
    (h : m.Pairwise entryLt) : (mapInsert k v m).Pairwise entryLt := by
  induction m with
  | nil => simp [mapInsert]
  | cons p rest ih =>
    obtain ⟨k', v'⟩ := p
    rw [List.pairwise_cons] at h
    rw [mapInsert]
    split
    · rename_i hlt
      refine List.Pairwise.cons ?_ (List.Pairwise.cons h.1 h.2)
      intro e he
      rcases List.mem_cons.mp he with rfl | he
      · exact hlt
      · exact lexLt_trans hlt (h.1 e he)
    · split
      · rename_i hlt heq
        refine List.Pairwise.cons ?_ h.2
        intro e he
        have := h.1 e he
        rw [entryLt] at this ⊢
        rw [chord_eq_iff] at heq
        rw [heq]
        exact this
      · rename_i hlt heq
        refine List.Pairwise.cons ?_ (ih h.2)
        intro e he
        rcases mem_mapInsert he with rfl | he
        · rw [entryLt]
          refine lexLt_total (by simpa using hlt) ?_
          intro hs
          exact heq (chord_eq_iff.mpr hs)
        · exact h.1 e he

theorem mapRemove_sublist (k : Chord) (m : ChordMap) :
    (mapRemove k m).Sublist m := by
  induction m with
  | nil => simp [mapRemove]
  | cons p rest ih =>
    obtain ⟨k', v'⟩ := p
    rw [mapRemove]
    split
    · exact List.sublist_cons_self _ _
    · exact List.Sublist.cons₂ _ ih

theorem pairwise_mapRemove {k : Chord} {m : ChordMap}
    (h : m.Pairwise entryLt) : (mapRemove k m).Pairwise entryLt :=
  h.sublist (mapRemove_sublist k m)

theorem pairwise_foldl_mapInsert {l : List (Chord × Word)} {init : ChordMap}
    (h : init.Pairwise entryLt) :
    (l.foldl (fun m e => mapInsert e.1 e.2 m) init).Pairwise entryLt := by
  induction l generalizing init with
  | nil => exact h
  | cons e rest ih => exact ih (pairwise_mapInsert h)

theorem pairwise_loadContent (content : List Char) :
    (loadContent content).Pairwise entryLt :=
  pairwise_foldl_mapInsert List.Pairwise.nil

theorem pairwise_applyOps {ops : List DictOp} {m : ChordMap}
    (h : m.Pairwise entryLt) : (applyOps ops m).Pairwise entryLt := by
  induction ops generalizing m with
  | nil => exact h
  | cons op rest ih =>
    cases op with
    | ins c w => exact ih (pairwise_mapInsert h)
    | rem c => exact ih (pairwise_mapRemove h)

theorem mapLookup_mapInsert {k k' : Chord} {v : Word} {m : ChordMap} :
    mapLookup k (mapInsert k' v m) =
      if k = k' then some v else mapLookup k m := by
  induction m with
  | nil => simp [mapInsert, mapLookup]
  | cons p rest ih =>
    obtain ⟨h', w'⟩ := p
    rw [mapInsert]
    split
    · rw [mapLookup, mapLookup]
    · split
      · rename_i hlt heq
        subst heq
        rw [mapLookup, mapLookup]
        by_cases hk : k = k' <;> simp [hk]
      · rename_i hlt heq
        by_cases hk : k = h'
        · subst hk
          rw [mapLookup, if_pos rfl, if_neg (fun he => heq he.symm), mapLookup,
            if_pos rfl]
        · rw [mapLookup, if_neg hk, ih, mapLookup, if_neg hk]

theorem mapInsert_append {k : Chord} {v : Word} {m : ChordMap}
    (h : ∀ e ∈ m, entryLt e (k, v)) : mapInsert k v m = m ++ [(k, v)] := by
  induction m with
  | nil => rfl
  | cons p rest ih =>
    obtain ⟨k', v'⟩ := p
    have hp := h (k', v') (List.mem_cons_self _ _)
    rw [entryLt] at hp
    have h1 : lexLt k.str k'.str = false := lexLt_asymm hp
    have h2 : k ≠ k' := by
      intro he
      rw [chord_eq_iff] at he
      rw [he, lexLt_irrefl] at hp
      exact Bool.false_ne_true hp
    rw [mapInsert, if_neg (by simp [h1]), if_neg h2,
      ih (fun e he => h e (List.mem_cons_of_mem _ he))]
    rfl

theorem foldl_mapInsert_id {entries acc : ChordMap}
    (h : (acc ++ entries).Pairwise entryLt) :
    entries.foldl (fun m e => mapInsert e.1 e.2 m) acc = acc ++ entries := by
  induction entries generalizing acc with
  | nil => simp
  | cons e rest ih =>
    have hgt : ∀ x ∈ acc, entryLt x e := by
      intro x hx
      exact (List.pairwise_append.mp h).2.2 x hx e (List.mem_cons_self e rest)
    rw [List.foldl_cons]
    have he : mapInsert e.1 e.2 acc = acc ++ [e] := by
      rw [mapInsert_append (by simpa using hgt)]
    rw [he, ih (by simpa using h)]
    simp

/-! ### Load and save -/

theorem parseLine_none_iff {line : List Char} :
    parseLine line = none ↔
      ':' ∉ line ∨ Chord.fromStr (line.takeWhile (· ≠ ':')) = none := by
  by_cases hm : ':' ∈ line
  · obtain ⟨s2, ss, hsp⟩ := splitOnChar_of_mem hm
    have hred : parseLine line =
        match Chord.fromStr (line.takeWhile (· ≠ ':')) with
        | some c => some (c, trimChars s2)
        | none => none := by
      rw [parseLine, hsp]
    rcases hf : Chord.fromStr (line.takeWhile (· ≠ ':')) with _ | c
    · rw [hred, hf]
      simp [hm]
    · rw [hred, hf]
      simp [hm, hf]
  · rw [parseLine, splitOnChar_no_sep hm]
    simp [hm]

theorem parseLine_decomp {l m : List Char} {c : Chord} (hl : ':' ∉ l)
    (hm : ':' ∉ m) (hc : Chord.fromStr l = some c) :
    parseLine (l ++ ':' :: m) = some (c, trimChars m) := by
  rw [parseLine, splitOnChar_append hl, splitOnChar_no_sep hm]
  simp [hc]

theorem parseLine_decomp2 {l m r : List Char} {c : Chord} (hl : ':' ∉ l)
    (hm : ':' ∉ m) (hc : Chord.fromStr l = some c) :
    parseLine (l ++ ':' :: m ++ ':' :: r) = some (c, trimChars m) := by
  have h0 : l ++ ':' :: m ++ ':' :: r = l ++ ':' :: (m ++ ':' :: r) := by simp
  rw [h0, parseLine, splitOnChar_append hl, splitOnChar_append hm]
  simp [hc]

theorem colon_not_mem_joinPlus {ks : List Char} (h : ∀ k ∈ ks, k ≠ ':') :
    ':' ∉ joinPlus ks := by
  intro hm
  rcases mem_joinPlus_elim hm with he | he
  · exact absurd he (by decide)
  · exact h ':' he rfl

theorem newline_not_mem_lineBody {ks : List Char} {w : Word}
    (hg : ∀ k ∈ ks, goodKey k = true) (hw : '\n' ∉ w) :
    '\n' ∉ lineBody (⟨joinPlus ks⟩, w) := by
  intro hm
  rw [lineBody] at hm
  rcases List.mem_append.mp hm with hm | hm
  · rcases mem_joinPlus_elim hm with he | he
    · exact absurd he (by decide)
    · exact absurd (goodKey_spell (hg '\n' he)).2.1 (by decide)
  · rcases List.mem_cons.mp hm with he | hm
    · exact absurd he (by decide)
    · rcases List.mem_cons.mp hm with he | hm
      · exact absurd he (by decide)
      · exact hw hm

theorem parseLine_saved {ks : List Char} {w : Word} (hne : ks ≠ [])
    (hp : ks.Pairwise (· < ·)) (hg : ∀ k ∈ ks, goodKey k = true)
    (hcol : ∀ k ∈ ks, k ≠ ':') (hwt : trimChars w = w) (hwc : ':' ∉ w) :
    parseLine (lineBody (⟨joinPlus ks⟩, w)) = some (⟨joinPlus ks⟩, w) := by
  have h1 : ':' ∉ joinPlus ks := colon_not_mem_joinPlus hcol
  have h2 : ':' ∉ ' ' :: w := by
    intro hm
    rcases List.mem_cons.mp hm with he | hm
    · exact absurd he (by decide)
    · exact hwc hm
  rw [lineBody]
  have h3 := parseLine_decomp (m := ' ' :: w) h1 h2 (fromStr_joinPlus hne hp hg)
  rw [h3, trimChars_cons_ws (by decide), hwt]

theorem splitOnChar_saveContent {m : ChordMap}
    (h : ∀ e ∈ m, '\n' ∉ lineBody e) :
    splitOnChar '\n' (saveContent m) = m.map lineBody ++ [[]] := by
  induction m with
  | nil => rfl
  | cons e rest ih =>
    have he : saveContent (e :: rest) =
        lineBody e ++ '\n' :: saveContent rest := by
      rw [saveContent, List.map_cons, List.flatten_cons]
      simp [saveContent]
    rw [he, splitOnChar_append (h e (List.mem_cons_self e rest)),
      ih (fun x hx => h x (List.mem_cons_of_mem e hx))]
    rfl

theorem filterMap_of_all_some {α β : Type} {f : α → Option β} {g : β → α}
    {l : List β} (h : ∀ e ∈ l, f (g e) = some e) : (l.map g).filterMap f = l := by
  induction l with
  | nil => rfl
  | cons e rest ih =>
    rw [List.map_cons, List.filterMap_cons, h e (List.mem_cons_self e rest),
      ih (fun x hx => h x (List.mem_cons_of_mem e hx))]

theorem mapLookup_foldl {entries : List (Chord × Word)} {acc : ChordMap}
    {k : Chord} :
    mapLookup k (entries.foldl (fun m e => mapInsert e.1 e.2 m) acc) =
      match (entries.filter (fun e => decide (e.1 = k))).getLast? with
      | some e => some e.2
      | none => mapLookup k acc := by
  induction entries generalizing acc with
  | nil => rfl
  | cons e rest ih =>
    rw [List.foldl_cons, ih, List.filter_cons]
    by_cases hk : e.1 = k
    · rw [if_pos (by simp [hk])]
      rcases hf : rest.filter (fun e => decide (e.1 = k)) with _ | ⟨x, xs⟩
      · simp only [hf, List.getLast?_nil, List.getLast?_singleton]
        rw [mapLookup_mapInsert, if_pos hk.symm]
      · simp only [hf, List.getLast?_cons_cons, List.getLast?_cons,
          Option.getD_some]
    · rw [if_neg (by simp [hk])]
      rcases hf : rest.filter (fun e => decide (e.1 = k)) with _ | ⟨x, xs⟩
      · simp only [hf, List.getLast?_nil]
        rw [mapLookup_mapInsert, if_neg (fun he => hk he.symm)]
      · simp only [hf, List.getLast?_cons]

/-! ### Reachable chords -/

theorem sortedInsertChar_takeWhile {c : Char} {l : List Char} (h : c ∉ l) :
    sortedInsertChar c l =
      l.takeWhile (· < c) ++ c :: l.dropWhile (· < c) := by
  induction l with
  | nil => rfl
  | cons a t ih =>
    have hca : c ≠ a := fun he => h (he ▸ List.mem_cons_self a t)
    by_cases hlt : c < a
    · have hna : ¬ a < c := lt_asymm hlt
      rw [sortedInsertChar, if_pos hlt,
        List.takeWhile_cons_of_neg (by simpa using hna),
        List.dropWhile_cons_of_neg (by simpa using hna)]
      rfl
    · have haz : a < c := lt_of_le_of_ne (not_lt.mp hlt) fun he => hca he.symm
      rw [sortedInsertChar, if_neg hlt, if_neg hca,
        ih (fun hm => h (List.mem_cons_of_mem a hm)),
        List.takeWhile_cons_of_pos (by simpa using haz),
        List.dropWhile_cons_of_pos (by simpa using haz)]
      rfl

theorem reachable_canonical {c : Chord} (h : Reachable c) :
    c.str = [] ∨ ∃ ks, ks ≠ [] ∧ c.str = joinPlus ks ∧ ks.Pairwise (· < ·) ∧
      ∀ k ∈ ks, goodKey k = true := by
  induction h with
  | dflt => exact Or.inl rfl
  | parse s c hp =>
    obtain ⟨ks, hc, hne, hpw, hg, _⟩ := fromStr_canonicalForm hp
    exact Or.inr ⟨ks, hne, by rw [hc], hpw, hg⟩
  | ins c k _ ih =>
    by_cases hcond :
        ((!isUpperAscii (upperAscii k)) || c.str.contains (upperAscii k)) = true
    · rw [insert_rejected hcond]
      exact ih
    · have h0 : ((!isUpperAscii (upperAscii k)) ||
          c.str.contains (upperAscii k)) = false := by
        cases hb : ((!isUpperAscii (upperAscii k)) ||
            c.str.contains (upperAscii k)) with
        | false => rfl
        | true => exact absurd hb hcond
      have hup : isUpperAscii (upperAscii k) = true := by
        rcases Bool.or_eq_false_iff.mp h0 with ⟨h1, _⟩
        cases hu : isUpperAscii (upperAscii k) with
        | true => rfl
        | false => rw [hu] at h1; cases h1
      have hnc : c.str.contains (upperAscii k) = false :=
        (Bool.or_eq_false_iff.mp h0).2
      obtain ⟨cs⟩ := c
      rcases ih with hemp | ⟨ks, hne, hstr, hpw, hg⟩
      · simp only at hemp
        subst hemp
        have h4 := insert_canonical
          (show ∀ x ∈ ([] : List Char), goodKey x = true by simp) hup
          (show upperAscii k ∉ ([] : List Char) by simp)
        rw [show joinPlus [] = [] from rfl] at h4
        rw [h4]
        exact Or.inr ⟨[upperAscii k], by simp, rfl, by simp,
          fun x hx => by
            rcases List.mem_singleton.mp hx with rfl
            exact goodKey_of_upper hup⟩
      · simp only at hstr
        subst hstr
        have hmem : upperAscii k ∉ ks := by
          intro hm
          have h3 : (joinPlus ks).contains (upperAscii k) = true := by
            simpa using mem_joinPlus_of_mem hm
          rw [h3] at hnc
          cases hnc
        rw [insert_canonical hg hup hmem]
        refine Or.inr ⟨sortedInsertChar (upperAscii k) ks,
          sortedInsertChar_ne_nil _ _, rfl, pairwise_sortedInsertChar hpw, ?_⟩
        intro x hx
        rcases mem_sortedInsertChar.mp hx with rfl | hx
        · exact goodKey_of_upper hup
        · exact hg x hx

/-! ## Claim theorems -/

/-- C3, counterexample: the claim asserts every reachable chord has only
uppercase-letter keys, but `Chord::from_str` never checks letterhood: parsing
`"1"` succeeds and yields the chord `"1"`, a reachable chord whose single key
`'1'` is not an uppercase letter. -/
theorem c3_counterexample :
    Chord.fromStr ['1'] = some ⟨['1']⟩ ∧ '1' ∈ (Chord.mk ['1']).str ∧
      '1' ≠ '+' ∧ isUpperAscii '1' = false := by
  decide

/-- C3 (amended): every chord reachable through the public constructors is
either empty or the `'+'`-join of a nonempty, strictly ascending (hence
duplicate-free) list of keys, none of which is `'+'`, whitespace, or an ASCII
lowercase letter; uppercase-letterhood of every key does not hold, because
`parse` admits non-letter keys such as digits. -/
theorem c3_reachable_invariant {c : Chord} (h : Reachable c) :
    c.str = [] ∨ ∃ ks, ks ≠ [] ∧ c.str = joinPlus ks ∧ ks.Pairwise (· < ·) ∧
      ∀ k ∈ ks, goodKey k = true :=
  reachable_canonical h

/-- C3, witness: the invariant instantiated at the chord parsed from "b+a". -/
theorem c3_witness :
    (Chord.mk ['A', '+', 'B']).str = [] ∨
      ∃ ks, ks ≠ [] ∧ (Chord.mk ['A', '+', 'B']).str = joinPlus ks ∧
        ks.Pairwise (· < ·) ∧ ∀ k ∈ ks, goodKey k = true :=
  c3_reachable_invariant (Reachable.parse ['b', '+', 'a'] _ (by decide))

/-- C4: on a chord satisfying the canonical-form invariant, inserting an
accepted key (case-folded uppercase letter, not already present) produces
exactly the `'+'`-joined ascending-sorted serialization of the previous key
set plus the new key, and the new key lands immediately before the first
existing key strictly greater than it (at the end when none is greater). -/
theorem c4_insert_sorted {ks : List Char} {key : Char}
    (_hp : ks.Pairwise (· < ·)) (hup : ∀ k ∈ ks, isUpperAscii k = true)
    (hkey : isUpperAscii (upperAscii key) = true)
    (hmem : upperAscii key ∉ ks) :
    Chord.insert ⟨joinPlus ks⟩ key =
      (true, ⟨joinPlus (sortedInsertChar (upperAscii key) ks)⟩) ∧
    sortedInsertChar (upperAscii key) ks =
      ks.takeWhile (· < upperAscii key) ++
        upperAscii key :: ks.dropWhile (· < upperAscii key) :=
  ⟨insert_canonical (fun k hk => goodKey_of_upper (hup k hk)) hkey hmem,
    sortedInsertChar_takeWhile hmem⟩

/-- C4, witness: inserting 'c' into the chord "B+D" gives "B+C+D". -/
theorem c4_witness :
    Chord.insert ⟨joinPlus ['B', 'D']⟩ 'c' =
      (true, ⟨joinPlus (sortedInsertChar (upperAscii 'c') ['B', 'D'])⟩) ∧
    sortedInsertChar (upperAscii 'c') ['B', 'D'] =
      ['B', 'D'].takeWhile (· < upperAscii 'c') ++
        upperAscii 'c' :: ['B', 'D'].dropWhile (· < upperAscii 'c') :=
  c4_insert_sorted (by decide) (by decide) (by decide) (by decide)

/-- C5: `Chord::insert` never fails: on every chord value and every input
character it returns `true` exactly when the case-folded key is an uppercase
letter not already contained in the canonical string, and the chord value is
unchanged exactly when it returns `false`. -/
theorem c5_insert_total (c : Chord) (k : Char) :
    ((Chord.insert c k).1 =
      (isUpperAscii (upperAscii k) && !(c.str.contains (upperAscii k)))) ∧
    ((Chord.insert c k).2 = c ↔ (Chord.insert c k).1 = false) := by
  by_cases hcond :
      ((!isUpperAscii (upperAscii k)) || c.str.contains (upperAscii k)) = true
  · rw [insert_rejected hcond]
    refine ⟨?_, by simp⟩
    revert hcond
    cases isUpperAscii (upperAscii k) <;>
      cases c.str.contains (upperAscii k) <;> simp
  · have hf : ((!isUpperAscii (upperAscii k)) ||
        c.str.contains (upperAscii k)) = false := by
      cases hb : ((!isUpperAscii (upperAscii k)) ||
          c.str.contains (upperAscii k)) with
      | false => rfl
      | true => exact absurd hb hcond
    have h1 : (Chord.insert c k).1 = true := by
      rw [Chord.insert]
      simp only [hf, Bool.false_eq_true, if_false]
      split <;> rfl
    refine ⟨?_, ?_⟩
    · rw [h1]
      revert hf
      cases isUpperAscii (upperAscii k) <;>
        cases c.str.contains (upperAscii k) <;> simp
    · rw [h1]
      simp only [Bool.true_eq_false, iff_false]
      exact insert_true_ne h1

/-- C6: `Chord::from_str` fails if and only if some `'+'`-separated segment of
the input is not exactly one character after trimming; the embedding's single
failure value models the sole surfaced error condition (InvalidKeyToken). -/
theorem c6_parse_error_iff (s : List Char) :
    Chord.fromStr s = none ↔
      ∃ seg ∈ splitOnChar '+' s, (trimChars seg).length ≠ 1 := by
  rcases hp : parseSegs (splitOnChar '+' s) with _ | cs
  · rw [Chord.fromStr, hp]
    constructor
    · intro _
      obtain ⟨seg, hs, hn⟩ := parseSegs_none_iff.mp hp
      exact ⟨seg, hs, charFromSegment_none_iff.mp hn⟩
    · intro _
      rfl
  · rw [Chord.fromStr, hp]
    constructor
    · intro h
      exact absurd h (by simp)
    · rintro ⟨seg, hs, hn⟩
      have h2 := parseSegs_none_iff.mpr
        ⟨seg, hs, charFromSegment_none_iff.mpr hn⟩
      rw [hp] at h2
      exact absurd h2 (by simp)

/-- C7: a successful parse yields the `'+'`-joined, strictly ascending,
deduplicated sequence of the case-folded segment characters; concretely,
"B+A", "A+B" and " a + b " all parse to "A+B", and the duplicate-key input
"A+B+A" is silently merged to "A+B" rather than rejected. -/
theorem c7_parse_normalizes :
    (∀ (s : List Char) (c : Chord), Chord.fromStr s = some c →
      ∃ ks, c = ⟨joinPlus ks⟩ ∧ ks.Pairwise (· < ·) ∧
        (∀ x, x ∈ ks ↔ ∃ seg ∈ splitOnChar '+' s, ∃ y,
          trimChars seg = [y] ∧ upperAscii y = x)) ∧
    Chord.fromStr ['B', '+', 'A'] = some ⟨['A', '+', 'B']⟩ ∧
    Chord.fromStr ['A', '+', 'B'] = some ⟨['A', '+', 'B']⟩ ∧
    Chord.fromStr [' ', 'a', ' ', '+', ' ', 'b', ' '] =
      some ⟨['A', '+', 'B']⟩ ∧
    Chord.fromStr ['A', '+', 'B', '+', 'A'] = some ⟨['A', '+', 'B']⟩ := by
  refine ⟨?_, by decide, by decide, by decide, by decide⟩
  intro s c h
  obtain ⟨ks, hc, hne, hpw, hg, hm⟩ := fromStr_canonicalForm h
  refine ⟨ks, hc, hpw, ?_⟩
  intro x
  rw [hm x]
  constructor
  · rintro ⟨seg, hs, y, hy, hxy⟩
    exact ⟨seg, hs, y, charFromSegment_some_iff.mp hy, hxy⟩
  · rintro ⟨seg, hs, y, hy, hxy⟩
    exact ⟨seg, hs, y, charFromSegment_some_iff.mpr hy, hxy⟩

/-- C7, witness: the characterization instantiated at " a + b ". -/
theorem c7_witness :
    ∃ ks, (Chord.mk ['A', '+', 'B']) = ⟨joinPlus ks⟩ ∧
      ks.Pairwise (· < ·) ∧
      (∀ x, x ∈ ks ↔ ∃ seg ∈ splitOnChar '+' [' ', 'a', ' ', '+', ' ', 'b', ' '],
        ∃ y, trimChars seg = [y] ∧ upperAscii y = x) :=
  c7_parse_normalizes.1 [' ', 'a', ' ', '+', ' ', 'b', ' ']
    ⟨['A', '+', 'B']⟩ (by decide)

/-- C1, counterexample: the round trip fails for an arbitrary word: the
dictionary {A ↦ "b:c"} saves as "A: b:c\n", but loading that text stores only
"b" (the text between the first and second ':'), so save-then-load does not
reproduce the original pairs. -/
theorem c1_counterexample :
    loadContent (saveContent (mapInsert ⟨['A']⟩ ['b', ':', 'c'] [])) ≠
      mapInsert ⟨['A']⟩ ['b', ':', 'c'] [] := by
  decide

/-- C1 (amended): save followed by load reproduces the dictionary exactly,
provided every chord key list is nonempty, strictly ascending, free of `'+'`,
`':'`, whitespace and ASCII lowercase characters, and every word is already
trimmed and contains neither `':'` nor a line feed; without these conditions
(e.g. a word containing `':'`) the round trip can lose or alter entries. -/
theorem c1_round_trip {km : List (List Char × Word)}
    (hk : ∀ e ∈ km, e.1 ≠ [] ∧ e.1.Pairwise (· < ·) ∧
      ∀ k ∈ e.1, goodKey k = true ∧ k ≠ ':')
    (hw : ∀ e ∈ km, trimChars e.2 = e.2 ∧ ':' ∉ e.2 ∧ '\n' ∉ e.2)
    (hs : (km.map (fun e => ((⟨joinPlus e.1⟩ : Chord), e.2))).Pairwise entryLt) :
    loadContent (saveContent (km.map (fun e => (⟨joinPlus e.1⟩, e.2)))) =
      km.map (fun e => (⟨joinPlus e.1⟩, e.2)) := by
  have hnl : ∀ e ∈ km.map (fun e => ((⟨joinPlus e.1⟩ : Chord), e.2)),
      '\n' ∉ lineBody e := by
    intro e he
    obtain ⟨p, hp, rfl⟩ := List.mem_map.mp he
    exact newline_not_mem_lineBody
      (fun k hk2 => ((hk p hp).2.2 k hk2).1) (hw p hp).2.2
  have hps : ∀ e ∈ km.map (fun e => ((⟨joinPlus e.1⟩ : Chord), e.2)),
      parseLine (lineBody e) = some e := by
    intro e he
    obtain ⟨p, hp, rfl⟩ := List.mem_map.mp he
    exact parseLine_saved (hk p hp).1 (hk p hp).2.1
      (fun k hk2 => ((hk p hp).2.2 k hk2).1)
      (fun k hk2 => ((hk p hp).2.2 k hk2).2)
      (hw p hp).1 (hw p hp).2.1
  rw [loadContent, splitOnChar_saveContent hnl, List.filterMap_append]
  rw [show ((km.map (fun e => ((⟨joinPlus e.1⟩ : Chord), e.2))).map
      lineBody).filterMap parseLine =
      km.map (fun e => ((⟨joinPlus e.1⟩ : Chord), e.2)) from
    filterMap_of_all_some hps]
  rw [show ([[]] : List (List Char)).filterMap parseLine = [] from rfl]
  rw [List.append_nil]
  exact foldl_mapInsert_id (by simpa using hs)

/-- C1, witness: a two-entry dictionary with plain uppercase chords and
colon-free trimmed words survives the save/load round trip unchanged. -/
theorem c1_witness :
    loadContent (saveContent ([(['A', 'B'], ['h', 'i']), (['C'], ['x'])].map
        (fun e => ((⟨joinPlus e.1⟩ : Chord), e.2)))) =
      [(['A', 'B'], ['h', 'i']), (['C'], ['x'])].map
        (fun e => (⟨joinPlus e.1⟩, e.2)) :=
  c1_round_trip (by decide) (by decide) (by decide)

/-- C2, counterexample: for the line "A:b:c" the stored word is "b", the text
between the first and second ':' — not the entire text "b:c" after the first
':' as the claim states. -/
theorem c2_counterexample :
    parseLine ['A', ':', 'b', ':', 'c'] = some (⟨['A']⟩, ['b']) ∧
      (['b'] : List Char) ≠ ['b', ':', 'c'] := by
  decide

/-- C2 (amended): for a line whose part before the first ':' parses as a
chord, the stored word is the trimmed text strictly between the first `':'`
and the second `':'` (or the end of the line when there is no second one);
any text after a second ':' is discarded. -/
theorem c2_word_between_colons {l m : List Char} {c : Chord} (hl : ':' ∉ l)
    (hm : ':' ∉ m) (hc : Chord.fromStr l = some c) :
    parseLine (l ++ ':' :: m) = some (c, trimChars m) ∧
      ∀ r : List Char,
        parseLine (l ++ ':' :: m ++ ':' :: r) = some (c, trimChars m) :=
  ⟨parseLine_decomp hl hm hc, fun _ => parseLine_decomp2 hl hm hc⟩

/-- C2, witness: the amended rule instantiated on "A: b:c". -/
theorem c2_witness :
    parseLine (['A'] ++ ':' :: [' ', 'b'] ++ ':' :: ['c']) =
      some (⟨['A']⟩, trimChars [' ', 'b']) :=
  (c2_word_between_colons (by decide) (by decide) (by decide)).2 ['c']

/-- C8: chord equality is plain equality of canonical strings, the order is
lexicographic string comparison (so "A+B" sorts before "B"), and `iter` on
any dictionary built by loading content and applying any sequence of
insert/remove edits yields its entries in ascending canonical-string order. -/
theorem c8_order_and_iteration :
    (∀ a b : Chord, a = b ↔ a.str = b.str) ∧
    lexLt ['A', '+', 'B'] ['B'] = true ∧
    (∀ (ops : List DictOp) (content : List Char),
      (Chords.iter (applyOps ops (loadContent content))).Chain'
        (fun a b => lexLt a.1.str b.1.str = true)) := by
  refine ⟨fun a b => chord_eq_iff, by decide, ?_⟩
  intro ops content
  exact List.Pairwise.chain'
    (pairwise_applyOps (pairwise_loadContent content))

/-- C9: the per-line load step drops a line exactly when it has no ':' or its
part before the first ':' fails chord parsing, and lookup in a loaded
dictionary returns the word of the last parseable line bearing that chord
(later duplicates overwrite earlier ones); loading itself is total. -/
theorem c9_best_effort_load :
    (∀ line : List Char, parseLine line = none ↔
      ':' ∉ line ∨ Chord.fromStr (line.takeWhile (· ≠ ':')) = none) ∧
    (∀ (content : List Char) (k : Chord),
      mapLookup k (loadContent content) =
        match (((splitOnChar '\n' content).filterMap parseLine).filter
            (fun e => decide (e.1 = k))).getLast? with
        | some e => some e.2
        | none => none) := by
  refine ⟨fun line => parseLine_none_iff, ?_⟩
  intro content k
  rw [loadContent, mapLookup_foldl]
  cases hgl : (((splitOnChar '\n' content).filterMap parseLine).filter
      (fun e => decide (e.1 = k))).getLast? with
  | none => rfl
  | some e => rfl

/-- C10: parsing the empty or a whitespace-only string is an error (the
single split segment trims to zero characters), no successful parse ever
returns the empty chord, insert never shrinks a chord to empty, and the line
saved for an empty chord (": <word>") is dropped on the next load. -/
theorem c10_empty_chord :
    (∀ s : List Char, (∀ ch ∈ s, rustWs ch = true) → Chord.fromStr s = none) ∧
    (∀ s : List Char, Chord.fromStr s ≠ some ⟨[]⟩) ∧
    (∀ (c : Chord) (k : Char), (Chord.insert c k).2.str = [] → c.str = []) ∧
    (∀ w : Word, parseLine (':' :: ' ' :: w) = none) := by
  refine ⟨?_, ?_, ?_, ?_⟩
  · intro s h
    have hplus : '+' ∉ s := by
      intro hm
      exact absurd (h '+' hm) (by decide)
    have ht : trimChars s = [] := trimChars_all_ws h
    rw [Chord.fromStr, splitOnChar_no_sep hplus, parseSegs,
      show charFromSegment s = none from
        charFromSegment_none_iff.mpr (by rw [ht]; decide)]
  · intro s hsome
    obtain ⟨ks, hc, hne, _, _, _⟩ := fromStr_canonicalForm hsome
    have : (⟨[]⟩ : Chord).str = joinPlus ks := by rw [hc]
    simp only at this
    exact hne (joinPlus_eq_nil_iff.mp this.symm)
  · intro c k hstr
    by_cases hcond : ((!isUpperAscii (upperAscii k)) ||
        c.str.contains (upperAscii k)) = true
    · rw [insert_rejected hcond] at hstr
      exact hstr
    · have hf : ((!isUpperAscii (upperAscii k)) ||
          c.str.contains (upperAscii k)) = false := by
        cases hb : ((!isUpperAscii (upperAscii k)) ||
            c.str.contains (upperAscii k)) with
        | false => rfl
        | true => exact absurd hb hcond
      obtain ⟨cs⟩ := c
      by_cases hemp : cs.isEmpty = true
      · exact List.isEmpty_iff.mp hemp
      · have hef : cs.isEmpty = false := by
          cases hb : cs.isEmpty with
          | false => rfl
          | true => exact absurd hb hemp
        have hi : Chord.insert ⟨cs⟩ k =
            (true, ⟨insertLoop (upperAscii k) cs⟩) := by
          rw [Chord.insert]
          simp only [hf, Bool.false_eq_true, if_false, hef]
        rw [hi] at hstr
        simp only at hstr
        have := congrArg List.length hstr
        rw [insertLoop_length] at this
        simp at this
  · intro w
    have h1 : splitOnChar ':' (':' :: ' ' :: w) =
        [] :: splitOnChar ':' (' ' :: w) := by
      rw [splitOnChar, if_pos rfl]
    rcases hsp : splitOnChar ':' (' ' :: w) with _ | ⟨s2, ss⟩
    · exact absurd hsp (splitOnChar_ne_nil _ _)
    · rw [parseLine, h1, hsp]
      rfl

/-- C10, witness: parsing a two-space string fails. -/
theorem c10_witness : Chord.fromStr [' ', ' '] = none :=
  c10_empty_chord.1 [' ', ' '] (by decide)

end ChordsCore
